import Mathlib

/-!
Shallow embedding of the duplicate-detection engine of `ledger-lint-duplicate`
(`src/main.go`), together with proofs about the claims of its specification.

Modelling conventions:
* `time.Time` values produced by parsing `YYYY/MM/DD` dates are modelled as
  exact rational timestamps measured in hours, so that `t₂.Sub(t₁).Hours()`
  becomes the rational difference `t₂ - t₁`.
* `float64` amounts and the `maxDuration` window are modelled as rationals;
  the engine only compares these values (exactly), it never rounds them.
* The Go map `map[float64][]Tx` is modelled as an association list
  `List (ℚ × List Tx)`; iterating the map corresponds to traversing the
  association list, and because Go randomises map iteration order, two runs
  on the same map are modelled as runs on two permutations of the list.
* `log.Fatal` calls are modelled with `Except.error`, carrying the message.
-/

/-- The `Tx` record of `main.go`.  `Date` is the transaction's timestamp in
hours (day-resolution dates give multiples of 24), `Position` the index of the
parent transaction in the imported file. -/
structure Tx where
  Date : ℚ
  Position : ℕ
  Payee : String
  Account : String
  Amount : ℚ
  Tags : List String
  deriving DecidableEq, Repr

/-- `find` from `main.go`: returns true on the first encountered occurrence of
`val` in `slice`. -/
def find (val : String) : List String → Bool
  | [] => false
  | str :: rest => if str = val then true else find val rest

/-- The loop body of the `keep` closure in `findDuplicates`: walk over the
members of `duplicates`; on the first member whose tags do not contain the
ignored tag, append `duplicates` to the accumulated output and stop; if every
member carries the tag, leave the output unchanged. -/
def keepGo (tag : String) (allDuplicates : List (List Tx)) (duplicates : List Tx) :
    List Tx → List (List Tx)
  | [] => allDuplicates
  | tx :: rest =>
    if find tag tx.Tags then keepGo tag allDuplicates duplicates rest
    else allDuplicates ++ [duplicates]

/-- The `keep` closure of `findDuplicates`: add `duplicates` to the output
unless all its transactions are marked with the ignore tag. -/
def keep (tag : String) (allDuplicates : List (List Tx)) (duplicates : List Tx) :
    List (List Tx) :=
  keepGo tag allDuplicates duplicates duplicates

/-- Date order on transactions, the sort key of `sort.SliceStable` in
`findDuplicates`. -/
def dateLe (a b : Tx) : Prop := a.Date ≤ b.Date

instance : DecidableRel dateLe := fun a b => inferInstanceAs (Decidable (a.Date ≤ b.Date))

instance : IsTotal Tx dateLe := ⟨fun a b => le_total a.Date b.Date⟩

instance : IsTrans Tx dateLe := ⟨fun _ _ _ h₁ h₂ => le_trans h₁ h₂⟩

/-- The in-place `sort.SliceStable(txs, by date)` of `findDuplicates`,
modelled by a stable sort on the date preorder.  (A stable sort is uniquely
determined by the total preorder it sorts by, so any stable sorting algorithm
models `sort.SliceStable` faithfully; we use insertion sort.) -/
def sortTxs (txs : List Tx) : List Tx := List.insertionSort dateLe txs

/-- The inner loop of `findDuplicates` (`for i := 1; i < len(txs); i++`),
walking a sorted bucket.  `prev` is `txs[i-1]`, the list argument holds
`txs[i], txs[i+1], ...`; `dups` is the in-progress `duplicates` chain and `li`
the `lastInserted` index into it.  The two `log.Fatal` branches become
`Except.error`.  (`List.getD` stands for Go's `duplicates[lastInserted]`; the
Go expression is only evaluated when `lastInserted >= 0` and, by the loop's
invariant, in bounds, so the default value is never relevant.) -/
def walkGo (md : ℚ) (tag : String) (acc : List (List Tx)) (dups : List Tx)
    (li : Int) (prev : Tx) : List Tx → Except String (List (List Tx))
  | [] => .ok (keep tag acc dups)
  | cur :: rest =>
    if cur.Date - prev.Date ≤ md then
      if cur.Date - prev.Date < 0 then
        .error "negative duration 1, this is a bug, please report it!"
      else if 0 ≤ li ∧ cur.Date - (dups.getD li.toNat prev).Date ≤ md then
        if cur.Date - (dups.getD li.toNat prev).Date < 0 then
          .error "negative duration 2, this is a bug, please report it!"
        else walkGo md tag acc (dups ++ [cur]) (li + 1) cur rest
      else walkGo md tag (keep tag acc dups) [prev, cur] 1 cur rest
    else walkGo md tag acc dups li cur rest

/-- One iteration of the bucket loop of `findDuplicates`: skip buckets of at
most one transaction, otherwise stable-sort the bucket by date and run the
chain-building walk from its second element. -/
def processBucket (md : ℚ) (tag : String) (acc : List (List Tx)) (b : ℚ × List Tx) :
    Except String (List (List Tx)) :=
  if b.2.length ≤ 1 then .ok acc
  else
    match sortTxs b.2 with
    | [] => .ok acc
    | first :: rest => walkGo md tag acc [] (-1) first rest

/-- `findDuplicates` from `main.go`: fold the bucket loop over the amount
buckets.  The bucket list stands for the Go map; its order models the map's
(randomised) iteration order. -/
def findDuplicates (md : ℚ) (tag : String) (buckets : List (ℚ × List Tx)) :
    Except String (List (List Tx)) :=
  buckets.foldlM (processBucket md tag) []

/-- A posting of an imported XML transaction: the fields of the deeply nested
`Ledger` structure that `toTxs` actually reads. -/
structure XmlPosting where
  account : String
  quantity : ℚ
  deriving DecidableEq, Repr

/-- An imported XML transaction, after its date string has been parsed (a
parse failure is fatal in `toTxs` before any bucket is built, so the engine
only ever sees parsed dates). -/
structure XmlTransaction where
  date : ℚ
  payee : String
  tags : List String
  postings : List XmlPosting
  deriving DecidableEq, Repr

/-- The `Tx` built by the body of the posting loop in `toTxs` for posting
`po` of the transaction at position `p`.  (Go copies the tag slice; for
immutable lists the copy is the list itself.) -/
def mkTx (p : ℕ) (t : XmlTransaction) (po : XmlPosting) : Tx :=
  { Date := t.date, Position := p, Payee := t.payee, Account := po.account,
    Amount := po.quantity, Tags := t.tags }

/-- The map update `txs[amount] = append(subTxs, tx)` / `txs[amount] = []Tx{tx}`
of `toTxs`, on the association-list model of the map. -/
def insertTx (txs : List (ℚ × List Tx)) (amount : ℚ) (tx : Tx) : List (ℚ × List Tx) :=
  match txs with
  | [] => [(amount, [tx])]
  | (a, l) :: rest =>
    if a = amount then (a, l ++ [tx]) :: rest else (a, l) :: insertTx rest amount tx

/-- The indexed transaction loop of `toTxs` (`for p, txXml := range ...`),
with its inner posting loop as a fold. -/
def toTxsGo (p : ℕ) (txs : List (ℚ × List Tx)) : List XmlTransaction → List (ℚ × List Tx)
  | [] => txs
  | t :: ts =>
    toTxsGo (p + 1) (t.postings.foldl (fun m po => insertTx m po.quantity (mkTx p t po)) txs) ts

/-- `toTxs` from `main.go`: bucket the imported transactions' postings by
amount, preserving import order inside each bucket. -/
def toTxs (ts : List XmlTransaction) : List (ℚ × List Tx) := toTxsGo 0 [] ts

/-- Bucket lookup in the association-list model of the Go map (`txs[amount]`,
yielding the empty bucket when the key is absent). -/
def getBucket : List (ℚ × List Tx) → ℚ → List Tx
  | [], _ => []
  | (a, l) :: rest, q => if a = q then l else getBucket rest q

/-- The state of the bucket map after `findDuplicates` returns: the in-place
`sort.SliceStable` has reordered every bucket that the loop did not skip.
This definition models that side effect (Go slices share storage with the
map's values, so the sort mutates the caller's buckets). -/
def bucketsAfter (buckets : List (ℚ × List Tx)) : List (ℚ × List Tx) :=
  buckets.map fun b => if b.2.length ≤ 1 then b else (b.1, sortTxs b.2)

/-- Invariant of the chain-building loop: either no chain is open
(`duplicates` empty, `lastInserted = -1`), or the open chain has at least two
members, `lastInserted` points at its last element, consecutive members are
date-ordered with gaps within the window, and the last member is dated no
later than the walk's predecessor element. -/
def WalkInv (md : ℚ) (dups : List Tx) (li : Int) (prev : Tx) : Prop :=
  (dups = [] ∧ li = -1) ∨
  (2 ≤ dups.length ∧ li = (dups.length : ℤ) - 1 ∧
    dups.Chain' (fun a b => a.Date ≤ b.Date ∧ b.Date - a.Date ≤ md) ∧
    ∀ x, dups.getLast? = some x → x.Date ≤ prev.Date)

/-- The groups contributed by one bucket (helper for reasoning about the
`Except`-valued loop: by `processBucket_acc` below the loop always succeeds
and appends exactly these groups). -/
def newGroups (md : ℚ) (tag : String) (b : ℚ × List Tx) : List (List Tx) :=
  match processBucket md tag [] b with
  | .ok gs => gs
  | .error _ => []

/-- The transactions that the posting loop of `toTxs` adds to bucket `q` for
the transaction `t` sitting at position `p` of the import. -/
def ownAt (p : ℕ) (t : XmlTransaction) (q : ℚ) : List Tx :=
  t.postings.filterMap fun po => if po.quantity = q then some (mkTx p t po) else none

/-- The contents of bucket `q` contributed by a list of transactions starting
at position `n`, in import order. -/
def bucketOfFrom (n : ℕ) (q : ℚ) : List XmlTransaction → List Tx
  | [] => []
  | t :: ts => ownAt n t q ++ bucketOfFrom (n + 1) q ts

/-- Well-formedness of the bucket map: every transaction sits in the bucket
keyed by its own amount. -/
def BucketsWF (m : List (ℚ × List Tx)) : Prop :=
  ∀ b ∈ m, ∀ tx ∈ b.2, tx.Amount = b.1

/-! ### Concrete scenario data used by the claim witnesses -/

/-- Three transactions of amount 10 dated day 0, day 9, day 18 (in hours). -/
def txS0 : Tx := ⟨0, 0, "", "", 10, []⟩

def txS9 : Tx := ⟨216, 1, "", "", 10, []⟩

def txS18 : Tx := ⟨432, 2, "", "", 10, []⟩

def txM1 : Tx := ⟨0, 0, "", "", 1, []⟩

def txM2 : Tx := ⟨24, 1, "", "", 1, []⟩

def txM3 : Tx := ⟨0, 2, "", "", 2, []⟩

def txM4 : Tx := ⟨24, 3, "", "", 2, []⟩

def txR1 : Tx := ⟨24, 0, "", "", 5, []⟩

def txR2 : Tx := ⟨0, 1, "", "", 5, []⟩

def xtA : XmlTransaction := ⟨0, "grocer", [], [⟨"assets", 7⟩]⟩

def xtB : XmlTransaction := ⟨24, "grocer again", [], [⟨"assets", 7⟩]⟩

def xtOther : XmlTransaction := ⟨0, "other", [], [⟨"assets", 3⟩]⟩

def xtTwin : XmlTransaction := ⟨48, "split posting", [], [⟨"assets", 5⟩, ⟨"cash", 5⟩]⟩

/-! ### Basic properties of `find` and `keep` -/

theorem find_iff_mem (v : String) : ∀ l : List String, find v l = true ↔ v ∈ l
  | [] => by simp [find]
  | s :: rest => by
    by_cases h : s = v
    · simp [find, h]
    · simp only [find, if_neg h, List.mem_cons]
      rw [find_iff_mem v rest]
      constructor
      · exact Or.inr
      · rintro (h' | h')
        · exact absurd h'.symm h
        · exact h'

theorem keepGo_acc (tag : String) (A : List (List Tx)) (dups : List Tx) :
    ∀ l, keepGo tag A dups l = A ++ keepGo tag [] dups l
  | [] => by simp [keepGo]
  | tx :: rest => by
    by_cases h : find tag tx.Tags = true
    · simp [keepGo, h, keepGo_acc tag A dups rest]
    · simp [keepGo, h]

theorem keep_acc (tag : String) (A : List (List Tx)) (dups : List Tx) :
    keep tag A dups = A ++ keep tag [] dups :=
  keepGo_acc tag A dups dups

theorem keepGo_emit (tag : String) (dups : List Tx) :
    ∀ l, (∃ tx ∈ l, find tag tx.Tags = false) → keepGo tag [] dups l = [dups]
  | [], h => by simp at h
  | tx :: rest, h => by
    by_cases htx : find tag tx.Tags = true
    · obtain ⟨t, ht, hft⟩ := h
      rcases List.mem_cons.mp ht with rfl | ht'
      · rw [htx] at hft; cases hft
      · simp only [keepGo, if_pos htx]
        exact keepGo_emit tag dups rest ⟨t, ht', hft⟩
    · simp [keepGo, htx]

theorem keepGo_drop (tag : String) (dups : List Tx) :
    ∀ l, (∀ tx ∈ l, find tag tx.Tags = true) → keepGo tag [] dups l = []
  | [], _ => rfl
  | tx :: rest, h => by
    simp only [keepGo, if_pos (h tx (List.mem_cons_self tx rest))]
    exact keepGo_drop tag dups rest fun t ht => h t (List.mem_cons_of_mem tx ht)

theorem keep_emit {tag : String} {dups : List Tx} (A : List (List Tx))
    (h : ∃ tx ∈ dups, find tag tx.Tags = false) : keep tag A dups = A ++ [dups] := by
  rw [keep, keepGo_acc, keepGo_emit tag dups dups h]

theorem keep_drop {tag : String} {dups : List Tx} (A : List (List Tx))
    (h : ∀ tx ∈ dups, find tag tx.Tags = true) : keep tag A dups = A := by
  rw [keep, keepGo_acc, keepGo_drop tag dups dups h, List.append_nil]

theorem keep_eq_or (tag : String) (A : List (List Tx)) (dups : List Tx) :
    keep tag A dups = A ∨ keep tag A dups = A ++ [dups] := by
  by_cases h : ∀ tx ∈ dups, find tag tx.Tags = true
  · exact Or.inl (keep_drop A h)
  · refine Or.inr (keep_emit A ?_)
    push_neg at h
    obtain ⟨tx, htx, hf⟩ := h
    exact ⟨tx, htx, by simpa using hf⟩

/-! ### Unfolding equations and accumulator extension for the walk -/

theorem walkGo_nil (md : ℚ) (tag : String) (acc : List (List Tx)) (dups : List Tx)
    (li : Int) (prev : Tx) : walkGo md tag acc dups li prev [] = .ok (keep tag acc dups) := rfl

theorem walkGo_cons (md : ℚ) (tag : String) (acc : List (List Tx)) (dups : List Tx)
    (li : Int) (prev cur : Tx) (rest : List Tx) :
    walkGo md tag acc dups li prev (cur :: rest) =
      if cur.Date - prev.Date ≤ md then
        if cur.Date - prev.Date < 0 then
          .error "negative duration 1, this is a bug, please report it!"
        else if 0 ≤ li ∧ cur.Date - (dups.getD li.toNat prev).Date ≤ md then
          if cur.Date - (dups.getD li.toNat prev).Date < 0 then
            .error "negative duration 2, this is a bug, please report it!"
          else walkGo md tag acc (dups ++ [cur]) (li + 1) cur rest
        else walkGo md tag (keep tag acc dups) [prev, cur] 1 cur rest
      else walkGo md tag acc dups li cur rest := rfl

theorem walkGo_acc (md : ℚ) (tag : String) :
    ∀ (rest : List Tx) (prev : Tx) (dups : List Tx) (li : Int) (acc : List (List Tx)),
      walkGo md tag acc dups li prev rest =
        (walkGo md tag [] dups li prev rest).map (acc ++ ·)
  | [], prev, dups, li, acc => by
    simp [walkGo_nil, Except.map, keep_acc tag acc dups]
  | cur :: rest, prev, dups, li, acc => by
    rw [walkGo_cons, walkGo_cons]
    by_cases c1 : cur.Date - prev.Date ≤ md
    · rw [if_pos c1, if_pos c1]
      by_cases c2 : cur.Date - prev.Date < 0
      · rw [if_pos c2, if_pos c2]; rfl
      · rw [if_neg c2, if_neg c2]
        by_cases c3 : 0 ≤ li ∧ cur.Date - (dups.getD li.toNat prev).Date ≤ md
        · rw [if_pos c3, if_pos c3]
          by_cases c4 : cur.Date - (dups.getD li.toNat prev).Date < 0
          · rw [if_pos c4, if_pos c4]; rfl
          · rw [if_neg c4, if_neg c4]
            exact walkGo_acc md tag rest cur (dups ++ [cur]) (li + 1) acc
        · rw [if_neg c3, if_neg c3]
          rw [walkGo_acc md tag rest cur [prev, cur] 1 (keep tag acc dups),
            walkGo_acc md tag rest cur [prev, cur] 1 (keep tag [] dups),
            keep_acc tag acc dups]
          cases walkGo md tag [] [prev, cur] 1 cur rest <;> simp [Except.map]
    · rw [if_neg c1, if_neg c1]
      exact walkGo_acc md tag rest cur dups li acc

/-! ### The walk invariant and a one-step characterisation -/

theorem getD_of_last {dups : List Tx} {li : Int}
    (hli : li = (dups.length : ℤ) - 1) (hne : dups ≠ []) (d : Tx) {x : Tx}
    (hx : dups.getLast? = some x) : dups.getD li.toNat d = x := by
  have hlen : dups.length ≠ 0 := fun h => hne (List.length_eq_zero.mp h)
  have htn : li.toNat = dups.length - 1 := by omega
  rw [List.getD_eq_getElem?_getD, htn, ← List.getLast?_eq_getElem?, hx]
  rfl

theorem exists_getLast? {dups : List Tx} (hne : dups ≠ []) :
    ∃ x, dups.getLast? = some x := by
  cases h : dups.getLast? with
  | none => exact absurd (List.getLast?_eq_none_iff.mp h) hne
  | some x => exact ⟨x, rfl⟩

/-- One step of the walk, from a state satisfying the invariant, does one of
three things: skip (window miss against the array predecessor), append to the
open chain, or flush and restart with `[prev, cur]`; the invariant is
preserved, with `cur` as the new predecessor, and neither fatal branch is
taken. -/
theorem walkGo_step (md : ℚ) (tag : String) (dups : List Tx) (li : Int)
    (prev cur : Tx) (rest : List Tx)
    (hInv : WalkInv md dups li prev) (hpc : prev.Date ≤ cur.Date) :
    (md < cur.Date - prev.Date ∧
      walkGo md tag [] dups li prev (cur :: rest) = walkGo md tag [] dups li cur rest ∧
      WalkInv md dups li cur) ∨
    (cur.Date - prev.Date ≤ md ∧
      (0 ≤ li ∧ cur.Date - (dups.getD li.toNat prev).Date ≤ md) ∧ dups ≠ [] ∧
      walkGo md tag [] dups li prev (cur :: rest) =
        walkGo md tag [] (dups ++ [cur]) (li + 1) cur rest ∧
      WalkInv md (dups ++ [cur]) (li + 1) cur) ∨
    (cur.Date - prev.Date ≤ md ∧
      ¬(0 ≤ li ∧ cur.Date - (dups.getD li.toNat prev).Date ≤ md) ∧
      walkGo md tag [] dups li prev (cur :: rest) =
        (walkGo md tag [] [prev, cur] 1 cur rest).map (keep tag [] dups ++ ·) ∧
      WalkInv md [prev, cur] 1 cur) := by
  by_cases c1 : cur.Date - prev.Date ≤ md
  · have c2 : ¬ cur.Date - prev.Date < 0 := by
      rw [not_lt]
      exact sub_nonneg.mpr hpc
    by_cases c3 : 0 ≤ li ∧ cur.Date - (dups.getD li.toNat prev).Date ≤ md
    · -- append branch
      have hne : dups ≠ [] := by
        rcases hInv with ⟨rfl, rfl⟩ | ⟨h2, -, -, -⟩
        · exact absurd c3.1 (by decide)
        · intro h
          rw [h] at h2
          simp at h2
      rcases hInv with ⟨rfl, rfl⟩ | ⟨h2, hli, hch, hlast⟩
      · simp at hne
      obtain ⟨x, hx⟩ := exists_getLast? hne
      have hgd : dups.getD li.toNat prev = x := getD_of_last hli hne prev hx
      have hxp : x.Date ≤ prev.Date := hlast x hx
      have c4 : ¬ cur.Date - (dups.getD li.toNat prev).Date < 0 := by
        rw [hgd, not_lt]
        exact sub_nonneg.mpr (le_trans hxp hpc)
      refine Or.inr (Or.inl ⟨c1, c3, hne, ?_, ?_⟩)
      · rw [walkGo_cons, if_pos c1, if_neg c2, if_pos c3, if_neg c4]
      · refine Or.inr ⟨?_, ?_, ?_, ?_⟩
        · rw [List.length_append, List.length_singleton]
          omega
        · rw [List.length_append, List.length_singleton]
          push_cast
          omega
        · rw [List.chain'_append]
          refine ⟨hch, List.chain'_singleton cur, ?_⟩
          intro y hy z hz
          simp only [List.head?_cons, Option.mem_def, Option.some.injEq] at hz
          rw [hx] at hy
          simp only [Option.mem_def, Option.some.injEq] at hy
          subst hy hz
          exact ⟨le_trans hxp hpc, by rw [← hgd]; exact c3.2⟩
        · intro y hy
          rw [List.getLast?_concat] at hy
          cases hy
          exact le_refl _
    · -- restart branch
      refine Or.inr (Or.inr ⟨c1, c3, ?_, ?_⟩)
      · rw [walkGo_cons, if_pos c1, if_neg c2, if_neg c3]
        exact walkGo_acc md tag rest cur [prev, cur] 1 (keep tag [] dups)
      · refine Or.inr ⟨by simp, by simp, ?_, ?_⟩
        · exact List.chain'_pair.mpr ⟨hpc, c1⟩
        · intro y hy
          simp only [List.getLast?_cons_cons, List.getLast?_singleton,
            Option.some.injEq] at hy
          subst hy
          exact le_refl _
  · -- skip branch
    refine Or.inl ⟨not_le.mp c1, ?_, ?_⟩
    · rw [walkGo_cons, if_neg c1]
    · rcases hInv with ⟨rfl, rfl⟩ | ⟨h2, hli, hch, hlast⟩
      · exact Or.inl ⟨rfl, rfl⟩
      · exact Or.inr ⟨h2, hli, hch, fun x hx => le_trans (hlast x hx) hpc⟩

/-! ### Shape of the groups produced by the walk -/

theorem keep_nil (tag : String) (A : List (List Tx)) : keep tag A [] = A := rfl

/-- On a date-sorted remainder, the walk never takes a fatal branch, and every
group it adds has at least two members, is chained with window-bounded gaps,
and draws its members from the open chain and the remaining elements. -/
theorem walkGo_ok_shape (md : ℚ) (tag : String) (rest : List Tx) :
    ∀ (prev : Tx) (dups : List Tx) (li : Int),
      WalkInv md dups li prev → (prev :: rest).Pairwise dateLe →
      ∃ new, walkGo md tag [] dups li prev rest = .ok new ∧
        ∀ g ∈ new, 2 ≤ g.length ∧
          g.Chain' (fun a b => a.Date ≤ b.Date ∧ b.Date - a.Date ≤ md) ∧
          ∀ t ∈ g, t ∈ dups ∨ t ∈ prev :: rest := by
  induction rest with
  | nil =>
    intro prev dups li hInv _
    rcases hInv with ⟨rfl, rfl⟩ | ⟨h2, hli, hch, hlast⟩
    · exact ⟨[], by rw [walkGo_nil, keep_nil], by simp⟩
    · rcases keep_eq_or tag [] dups with hk | hk
      · exact ⟨[], by rw [walkGo_nil, hk], by simp⟩
      · refine ⟨[dups], by rw [walkGo_nil, hk]; rfl, ?_⟩
        intro g hg
        rw [List.mem_singleton] at hg
        subst hg
        exact ⟨h2, hch, fun t ht => Or.inl ht⟩
  | cons cur rest ih =>
    intro prev dups li hInv hpw
    have hpc : prev.Date ≤ cur.Date :=
      List.rel_of_pairwise_cons hpw (List.mem_cons_self cur rest)
    rcases walkGo_step md tag dups li prev cur rest hInv hpc with
      ⟨_, heq, hInv'⟩ | ⟨_, _, _, heq, hInv'⟩ | ⟨_, _, heq, hInv'⟩
    · -- skip
      obtain ⟨new, hok, hshape⟩ := ih cur dups li hInv' hpw.of_cons
      refine ⟨new, heq.trans hok, fun g hg => ?_⟩
      obtain ⟨hlen, hch, hmem⟩ := hshape g hg
      refine ⟨hlen, hch, fun t ht => ?_⟩
      rcases hmem t ht with h | h
      · exact Or.inl h
      · exact Or.inr (List.mem_cons_of_mem prev h)
    · -- append
      obtain ⟨new, hok, hshape⟩ := ih cur (dups ++ [cur]) (li + 1) hInv' hpw.of_cons
      refine ⟨new, heq.trans hok, fun g hg => ?_⟩
      obtain ⟨hlen, hch, hmem⟩ := hshape g hg
      refine ⟨hlen, hch, fun t ht => ?_⟩
      rcases hmem t ht with h | h
      · rcases List.mem_append.mp h with h' | h'
        · exact Or.inl h'
        · rw [List.mem_singleton] at h'
          refine Or.inr ?_
          rw [h']
          exact List.mem_cons_of_mem prev (List.mem_cons_self cur rest)
      · exact Or.inr (List.mem_cons_of_mem prev h)
    · -- flush and restart
      obtain ⟨new', hok', hshape'⟩ := ih cur [prev, cur] 1 hInv' hpw.of_cons
      refine ⟨keep tag [] dups ++ new', by rw [heq, hok']; rfl, fun g hg => ?_⟩
      rcases List.mem_append.mp hg with hgk | hgn
      · rcases hInv with ⟨rfl, -⟩ | ⟨h2, hli, hch, hlast⟩
        · rw [keep_nil] at hgk
          simp at hgk
        · rcases keep_eq_or tag [] dups with hk | hk
          · rw [hk] at hgk
            simp at hgk
          · rw [hk] at hgk
            simp only [List.nil_append, List.mem_singleton] at hgk
            subst hgk
            exact ⟨h2, hch, fun t ht => Or.inl ht⟩
      · obtain ⟨hlen, hch, hmem⟩ := hshape' g hgn
        refine ⟨hlen, hch, fun t ht => ?_⟩
        rcases hmem t ht with h | h
        · rcases List.mem_cons.mp h with h' | h'
          · exact Or.inr (h' ▸ List.mem_cons_self prev (cur :: rest))
          · rw [List.mem_singleton] at h'
            refine Or.inr ?_
            rw [h']
            exact List.mem_cons_of_mem prev (List.mem_cons_self cur rest)
        · exact Or.inr (List.mem_cons_of_mem prev h)

/-! ### Emitted groups do not overlap: their concatenation is a sublist -/

/-- The concatenation of the open chain with all groups the walk will still
flush embeds, in order and without reuse, into the chain followed by the
remaining elements (the predecessor is only available to a fresh chain when
it is not already the last member of the open one). -/
theorem walkGo_flatten_sublist (md : ℚ) (tag : String) (rest : List Tx) :
    ∀ (prev : Tx) (dups : List Tx) (li : Int) (new : List (List Tx)),
      ((dups = [] ∧ li = -1) ∨ (2 ≤ dups.length ∧ li = (dups.length : ℤ) - 1)) →
      walkGo md tag [] dups li prev rest = .ok new →
      List.Sublist new.flatten
        (dups ++ (if dups.getLast? = some prev then rest else prev :: rest)) := by
  induction rest with
  | nil =>
    intro prev dups li new _ hok
    rw [walkGo_nil] at hok
    cases hok
    rcases keep_eq_or tag [] dups with hk | hk
    · rw [hk]
      simp
    · rw [hk]
      simp only [List.nil_append, List.flatten_cons, List.flatten_nil, List.append_nil]
      exact List.sublist_append_left dups _
  | cons cur rest ih =>
    intro prev dups li new hInv hok
    rw [walkGo_cons] at hok
    by_cases c1 : cur.Date - prev.Date ≤ md
    · rw [if_pos c1] at hok
      by_cases c2 : cur.Date - prev.Date < 0
      · rw [if_pos c2] at hok
        cases hok
      · rw [if_neg c2] at hok
        by_cases c3 : 0 ≤ li ∧ cur.Date - (dups.getD li.toNat prev).Date ≤ md
        · rw [if_pos c3] at hok
          by_cases c4 : cur.Date - (dups.getD li.toNat prev).Date < 0
          · rw [if_pos c4] at hok
            cases hok
          · rw [if_neg c4] at hok
            rcases hInv with ⟨rfl, rfl⟩ | ⟨h2, hli⟩
            · exact absurd c3.1 (by decide)
            have hInv' : (dups ++ [cur] = [] ∧ li + 1 = -1) ∨
                (2 ≤ (dups ++ [cur]).length ∧
                  li + 1 = ((dups ++ [cur]).length : ℤ) - 1) := by
              refine Or.inr ⟨?_, ?_⟩
              · rw [List.length_append, List.length_singleton]
                omega
              · rw [List.length_append, List.length_singleton]
                push_cast
                omega
            have hbound := ih cur (dups ++ [cur]) (li + 1) new hInv' hok
            rw [if_pos (List.getLast?_concat dups)] at hbound
            have hmid : List.Sublist ((dups ++ [cur]) ++ rest) (dups ++ (cur :: rest)) := by
              rw [List.append_assoc, List.singleton_append]
            by_cases hgl : dups.getLast? = some prev
            · rw [if_pos hgl]
              exact hbound.trans hmid
            · rw [if_neg hgl]
              refine (hbound.trans hmid).trans ?_
              exact (List.sublist_cons_self prev (cur :: rest)).append_left dups
        · rw [if_neg c3] at hok
          rw [walkGo_acc] at hok
          cases hin : walkGo md tag [] [prev, cur] 1 cur rest with
          | error e => rw [hin] at hok; cases hok
          | ok new₁ =>
            rw [hin] at hok
            cases hok
            have hbound := ih cur [prev, cur] 1 new₁ (Or.inr (by simp)) hin
            rw [if_pos (by simp)] at hbound
            have hnew₁ : List.Sublist new₁.flatten (prev :: cur :: rest) := by
              simpa using hbound
            have hgl : ¬ dups.getLast? = some prev := by
              intro hgl
              rcases hInv with ⟨rfl, rfl⟩ | ⟨h2, hli⟩
              · simp at hgl
              · have hne : dups ≠ [] := by
                  intro h
                  rw [h] at h2
                  simp at h2
                have := getD_of_last hli hne prev hgl
                exact c3 ⟨by omega, by rw [this]; exact c1⟩
            rw [if_neg hgl, List.flatten_append]
            refine List.Sublist.append ?_ hnew₁
            rcases keep_eq_or tag [] dups with hk | hk
            · rw [hk]
              exact List.nil_sublist dups
            · rw [hk]
              simp only [List.nil_append, List.flatten_cons, List.flatten_nil,
                List.append_nil]
              exact List.Sublist.refl dups
    · rw [if_neg c1] at hok
      have hbound := ih cur dups li new hInv hok
      have hmain : List.Sublist new.flatten (dups ++ (cur :: rest)) := by
        by_cases hgl : dups.getLast? = some cur
        · rw [if_pos hgl] at hbound
          exact hbound.trans ((List.sublist_cons_self cur rest).append_left dups)
        · rw [if_neg hgl] at hbound
          exact hbound
      by_cases hglp : dups.getLast? = some prev
      · rw [if_pos hglp]
        exact hmain
      · rw [if_neg hglp]
        exact hmain.trans ((List.sublist_cons_self prev (cur :: rest)).append_left dups)

/-! ### Chains that contain an untagged member survive to the output -/

/-- If the open chain contains a member without the ignored tag, then some
group of the final output contains every member of the open chain. -/
theorem walkGo_chain_kept (md : ℚ) (tag : String) (rest : List Tx) :
    ∀ (prev : Tx) (dups : List Tx) (li : Int) (new : List (List Tx)),
      walkGo md tag [] dups li prev rest = .ok new →
      (∃ t ∈ dups, find tag t.Tags = false) →
      ∃ g ∈ new, ∀ t ∈ dups, t ∈ g := by
  induction rest with
  | nil =>
    intro prev dups li new hok hun
    rw [walkGo_nil, keep_emit [] hun] at hok
    cases hok
    exact ⟨dups, by simp, fun t ht => ht⟩
  | cons cur rest ih =>
    intro prev dups li new hok hun
    rw [walkGo_cons] at hok
    by_cases c1 : cur.Date - prev.Date ≤ md
    · rw [if_pos c1] at hok
      by_cases c2 : cur.Date - prev.Date < 0
      · rw [if_pos c2] at hok
        cases hok
      · rw [if_neg c2] at hok
        by_cases c3 : 0 ≤ li ∧ cur.Date - (dups.getD li.toNat prev).Date ≤ md
        · rw [if_pos c3] at hok
          by_cases c4 : cur.Date - (dups.getD li.toNat prev).Date < 0
          · rw [if_pos c4] at hok
            cases hok
          · rw [if_neg c4] at hok
            obtain ⟨t, ht, htag⟩ := hun
            obtain ⟨g, hg, hall⟩ :=
              ih cur (dups ++ [cur]) (li + 1) new hok ⟨t, List.mem_append_left _ ht, htag⟩
            exact ⟨g, hg, fun t' ht' => hall t' (List.mem_append_left _ ht')⟩
        · rw [if_neg c3, walkGo_acc] at hok
          cases hin : walkGo md tag [] [prev, cur] 1 cur rest with
          | error e => rw [hin] at hok; cases hok
          | ok new₁ =>
            rw [hin] at hok
            cases hok
            refine ⟨dups, ?_, fun t ht => ht⟩
            rw [keep_emit [] hun]
            simp
    · rw [if_neg c1] at hok
      exact ih cur dups li new hok hun

/-- A maximal run of equal-date elements following the chain's last member is
entirely absorbed into the open chain, and (the chain containing an untagged
member) ends up inside a single output group. -/
theorem walkGo_run_absorb (md : ℚ) (tag : String) (hmd : 0 ≤ md) (zs : List Tx) :
    ∀ (rest : List Tx) (prev : Tx) (dups : List Tx) (li : Int) (new : List (List Tx)),
      (∃ t ∈ dups, find tag t.Tags = false) →
      2 ≤ dups.length → li = (dups.length : ℤ) - 1 → dups.getLast? = some prev →
      (∀ z ∈ zs, z.Date = prev.Date) →
      walkGo md tag [] dups li prev (zs ++ rest) = .ok new →
      ∃ g ∈ new, (∀ t ∈ dups, t ∈ g) ∧ (∀ z ∈ zs, z ∈ g) := by
  induction zs with
  | nil =>
    intro rest prev dups li new hun h2 hli hgl hz hok
    rw [List.nil_append] at hok
    obtain ⟨g, hg, hall⟩ := walkGo_chain_kept md tag rest prev dups li new hok hun
    exact ⟨g, hg, hall, by simp⟩
  | cons z zs ih =>
    intro rest prev dups li new hun h2 hli hgl hz hok
    have hzd : z.Date = prev.Date := hz z (List.mem_cons_self z zs)
    have hne : dups ≠ [] := by
      intro h
      rw [h] at h2
      simp at h2
    have hgd : dups.getD li.toNat prev = prev := getD_of_last hli hne prev hgl
    have e0 : z.Date - prev.Date = 0 := by rw [hzd, sub_self]
    rw [List.cons_append, walkGo_cons,
      if_pos (show z.Date - prev.Date ≤ md by rw [e0]; exact hmd),
      if_neg (show ¬ z.Date - prev.Date < 0 by rw [e0]; exact lt_irrefl 0),
      if_pos (show 0 ≤ li ∧ z.Date - (dups.getD li.toNat prev).Date ≤ md by
        refine ⟨by omega, ?_⟩
        rw [hgd, e0]
        exact hmd),
      if_neg (show ¬ z.Date - (dups.getD li.toNat prev).Date < 0 by
        rw [hgd, e0]
        exact lt_irrefl 0)] at hok
    obtain ⟨t, ht, htag⟩ := hun
    obtain ⟨g, hg, hdups, hzs⟩ := ih rest z (dups ++ [z]) (li + 1) new
      ⟨t, List.mem_append_left _ ht, htag⟩
      (by rw [List.length_append, List.length_singleton]; omega)
      (by rw [List.length_append, List.length_singleton]; push_cast; omega)
      (List.getLast?_concat dups)
      (fun z' hz' => (hz z' (List.mem_cons_of_mem z hz')).trans hzd.symm)
      hok
    refine ⟨g, hg, fun t' ht' => hdups t' (List.mem_append_left _ ht'), ?_⟩
    intro z' hz'
    rcases List.mem_cons.mp hz' with rfl | hz''
    · exact hdups z' (List.mem_append_right _ (List.mem_singleton.mpr rfl))
    · exact hzs z' hz''

/-- Walking a prefix `s₁` from a valid state reaches the remainder `rest₀` in
some valid state, having emitted a prefix of the final output on the way. -/
theorem walkGo_reach (md : ℚ) (tag : String) (rest₀ : List Tx) (s₁ : List Tx) :
    ∀ (prev : Tx) (dups : List Tx) (li : Int) (new : List (List Tx)),
      WalkInv md dups li prev →
      (prev :: (s₁ ++ rest₀)).Pairwise dateLe →
      walkGo md tag [] dups li prev (s₁ ++ rest₀) = .ok new →
      ∃ prev' dups' li' pre new',
        WalkInv md dups' li' prev' ∧ (prev' :: rest₀).Pairwise dateLe ∧
        walkGo md tag [] dups' li' prev' rest₀ = .ok new' ∧ new = pre ++ new' := by
  induction s₁ with
  | nil =>
    intro prev dups li new hInv hpw hok
    exact ⟨prev, dups, li, [], new, hInv, by simpa using hpw, by simpa using hok, by simp⟩
  | cons w s₁ ih =>
    intro prev dups li new hInv hpw hok
    rw [List.cons_append] at hpw hok
    have hpc : prev.Date ≤ w.Date :=
      List.rel_of_pairwise_cons hpw (List.mem_cons_self w (s₁ ++ rest₀))
    rcases walkGo_step md tag dups li prev w (s₁ ++ rest₀) hInv hpc with
      ⟨_, heq, hInv'⟩ | ⟨_, _, _, heq, hInv'⟩ | ⟨_, _, heq, hInv'⟩
    · rw [heq] at hok
      exact ih w dups li new hInv' hpw.of_cons hok
    · rw [heq] at hok
      exact ih w (dups ++ [w]) (li + 1) new hInv' hpw.of_cons hok
    · rw [heq] at hok
      cases hin : walkGo md tag [] [prev, w] 1 w (s₁ ++ rest₀) with
      | error e => rw [hin] at hok; cases hok
      | ok new₁ =>
        rw [hin] at hok
        cases hok
        obtain ⟨prev', dups', li', pre, new', hInv'', hpw', hok', rfl⟩ :=
          ih w [prev, w] 1 new₁ hInv' hpw.of_cons hin
        exact ⟨prev', dups', li', keep tag [] dups ++ pre, new', hInv'', hpw', hok',
          by rw [List.append_assoc]⟩

/-- Arriving in any valid state at a contiguous equal-date run `z₁ z₂ …` of
the sorted bucket, the walk puts the whole run into a single chain, and when
`z₁` lacks the ignored tag that chain survives into a single output group. -/
theorem walkGo_entry (md : ℚ) (tag : String) (hmd : 0 ≤ md) (z₁ z₂ : Tx)
    (zs s₂ : List Tx) (htag : find tag z₁.Tags = false)
    (hdz : ∀ z ∈ z₂ :: zs, z.Date = z₁.Date) :
    ∀ (prev : Tx) (dups : List Tx) (li : Int) (new : List (List Tx)),
      WalkInv md dups li prev →
      (prev :: ((z₁ :: z₂ :: zs) ++ s₂)).Pairwise dateLe →
      walkGo md tag [] dups li prev ((z₁ :: z₂ :: zs) ++ s₂) = .ok new →
      ∃ g ∈ new, ∀ z ∈ z₁ :: z₂ :: zs, z ∈ g := by
  intro prev dups li new hInv hpw hok
  simp only [List.cons_append] at hok hpw
  have hz₂ : z₂.Date = z₁.Date := hdz z₂ (List.mem_cons_self z₂ zs)
  have hpz : prev.Date ≤ z₁.Date :=
    List.rel_of_pairwise_cons hpw (List.mem_cons_self z₁ (z₂ :: (zs ++ s₂)))
  rcases walkGo_step md tag dups li prev z₁ (z₂ :: (zs ++ s₂)) hInv hpz with
    ⟨hmiss, heq, hInv'⟩ | ⟨hc1, hc3, hne, heq, hInv'⟩ | ⟨hc1, hc3, heq, hInv'⟩
  · -- window miss against `prev`: `z₁` starts a fresh chain together with `z₂`
    rw [heq] at hok
    have c3' : ¬(0 ≤ li ∧ z₂.Date - (dups.getD li.toNat z₁).Date ≤ md) := by
      rcases hInv with ⟨rfl, rfl⟩ | ⟨h2, hli, hch, hlast⟩
      · rintro ⟨h, -⟩
        exact absurd h (by decide)
      · have hne : dups ≠ [] := by
          intro h
          rw [h] at h2
          simp at h2
        obtain ⟨x, hx⟩ := exists_getLast? hne
        have hgd : dups.getD li.toNat z₁ = x := getD_of_last hli hne z₁ hx
        have hxp : x.Date ≤ prev.Date := hlast x hx
        rintro ⟨-, hle⟩
        rw [hgd, hz₂] at hle
        linarith
    rw [walkGo_cons,
      if_pos (show z₂.Date - z₁.Date ≤ md by rw [hz₂, sub_self]; exact hmd),
      if_neg (show ¬ z₂.Date - z₁.Date < 0 by rw [hz₂, sub_self]; exact lt_irrefl 0),
      if_neg c3', walkGo_acc] at hok
    cases hin : walkGo md tag [] [z₁, z₂] 1 z₂ (zs ++ s₂) with
    | error e => rw [hin] at hok; cases hok
    | ok new₁ =>
      rw [hin] at hok
      cases hok
      obtain ⟨g, hg, hdups, hzs⟩ := walkGo_run_absorb md tag hmd zs s₂ z₂ [z₁, z₂] 1 new₁
        ⟨z₁, by simp, htag⟩ (by simp) (by simp) (by simp)
        (fun z hz => (hdz z (List.mem_cons_of_mem z₂ hz)).trans hz₂.symm) hin
      refine ⟨g, List.mem_append_right _ hg, ?_⟩
      intro z hz
      rcases List.mem_cons.mp hz with rfl | hz'
      · exact hdups z (by simp)
      rcases List.mem_cons.mp hz' with rfl | hz''
      · exact hdups z (by simp)
      · exact hzs z hz''
  · -- `z₁` is appended to the open chain and becomes its last member
    rw [heq] at hok
    rcases hInv' with ⟨habs, -⟩ | ⟨h2', hli', -, -⟩
    · simp at habs
    obtain ⟨g, hg, hdups, hzs⟩ := walkGo_run_absorb md tag hmd (z₂ :: zs) s₂ z₁
      (dups ++ [z₁]) (li + 1) new
      ⟨z₁, List.mem_append_right _ (List.mem_singleton.mpr rfl), htag⟩
      h2' hli' (List.getLast?_concat dups) hdz (by simpa using hok)
    refine ⟨g, hg, ?_⟩
    intro z hz
    rcases List.mem_cons.mp hz with rfl | hz'
    · exact hdups z (List.mem_append_right _ (List.mem_singleton.mpr rfl))
    · exact hzs z hz'
  · -- the chain is flushed and `[prev, z₁]` starts afresh, ending in `z₁`
    rw [heq] at hok
    cases hin : walkGo md tag [] [prev, z₁] 1 z₁ (z₂ :: (zs ++ s₂)) with
    | error e => rw [hin] at hok; cases hok
    | ok new₁ =>
      rw [hin] at hok
      cases hok
      obtain ⟨g, hg, hdups, hzs⟩ := walkGo_run_absorb md tag hmd (z₂ :: zs) s₂ z₁
        [prev, z₁] 1 new₁ ⟨z₁, by simp, htag⟩ (by simp) (by simp) (by simp) hdz
        (by simpa using hin)
      refine ⟨g, List.mem_append_right _ hg, ?_⟩
      intro z hz
      rcases List.mem_cons.mp hz with rfl | hz'
      · exact hdups z (by simp)
      · exact hzs z hz'

/-! ### Bucket-level characterisation -/

theorem sortTxs_sorted (l : List Tx) : (sortTxs l).Pairwise dateLe :=
  List.sorted_insertionSort dateLe l

theorem sortTxs_perm (l : List Tx) : (sortTxs l).Perm l :=
  List.perm_insertionSort dateLe l

/-- Stability of the bucket sort: every date-sorted sublist of the bucket is
still a sublist of the sorted bucket; in particular elements of equal date
keep their relative (import) order. -/
theorem sortTxs_sublist {l c : List Tx} (hc : c.Pairwise dateLe)
    (hs : List.Sublist c l) : List.Sublist c (sortTxs l) :=
  List.sublist_insertionSort hc hs

theorem processBucket_nil_ok (md : ℚ) (tag : String) (b : ℚ × List Tx) :
    processBucket md tag [] b = .ok (newGroups md tag b) := by
  by_cases h : b.2.length ≤ 1
  · have : processBucket md tag [] b = .ok [] := by simp [processBucket, h]
    rw [this, newGroups, this]
  · cases hs : sortTxs b.2 with
    | nil =>
      have : processBucket md tag [] b = .ok [] := by
        rw [processBucket, if_neg h, hs]
      rw [this, newGroups, this]
    | cons first rest =>
      have hsorted : (first :: rest).Pairwise dateLe := hs ▸ sortTxs_sorted b.2
      obtain ⟨new, hok, -⟩ :=
        walkGo_ok_shape md tag rest first [] (-1) (Or.inl ⟨rfl, rfl⟩) hsorted
      have hpb : processBucket md tag [] b = .ok new := by
        rw [processBucket, if_neg h, hs]
        exact hok
      rw [hpb, newGroups, hpb]

theorem processBucket_map (md : ℚ) (tag : String) (acc : List (List Tx))
    (b : ℚ × List Tx) :
    processBucket md tag acc b = (processBucket md tag [] b).map (acc ++ ·) := by
  by_cases h : b.2.length ≤ 1
  · simp [processBucket, h, Except.map]
  · cases hs : sortTxs b.2 with
    | nil => simp [processBucket, h, hs, Except.map]
    | cons first rest =>
      rw [processBucket, processBucket, if_neg h, if_neg h, hs]
      exact walkGo_acc md tag rest first [] (-1) acc

theorem processBucket_acc (md : ℚ) (tag : String) (acc : List (List Tx))
    (b : ℚ × List Tx) :
    processBucket md tag acc b = .ok (acc ++ newGroups md tag b) := by
  rw [processBucket_map, processBucket_nil_ok]
  rfl

/-- Buckets of at most one transaction contribute nothing. -/
theorem processBucket_small {b : ℚ × List Tx} (md : ℚ) (tag : String)
    (acc : List (List Tx)) (h : b.2.length ≤ 1) :
    processBucket md tag acc b = .ok acc := by
  simp [processBucket, h]

theorem foldlM_processBucket (md : ℚ) (tag : String) :
    ∀ (bs : List (ℚ × List Tx)) (acc : List (List Tx)),
      List.foldlM (processBucket md tag) acc bs =
        .ok (acc ++ bs.flatMap (newGroups md tag))
  | [], acc => by simp; rfl
  | b :: bs, acc => by
    rw [List.foldlM_cons, processBucket_acc]
    show List.foldlM (processBucket md tag) (acc ++ newGroups md tag b) bs = _
    rw [foldlM_processBucket md tag bs (acc ++ newGroups md tag b), List.flatMap_cons,
      List.append_assoc]

/-- `findDuplicates` never fails, and its output is the concatenation of the
per-bucket group lists, in bucket (map iteration) order. -/
theorem findDuplicates_eq (md : ℚ) (tag : String) (bs : List (ℚ × List Tx)) :
    findDuplicates md tag bs = .ok (bs.flatMap (newGroups md tag)) := by
  rw [findDuplicates, foldlM_processBucket]
  rw [List.nil_append]

/-- Per-bucket groups: at least two members, consecutive members date-ordered
with window-bounded gaps, members drawn from the bucket. -/
theorem newGroups_shape (md : ℚ) (tag : String) (b : ℚ × List Tx) :
    ∀ g ∈ newGroups md tag b, 2 ≤ g.length ∧
      g.Chain' (fun a c => a.Date ≤ c.Date ∧ c.Date - a.Date ≤ md) ∧
      ∀ t ∈ g, t ∈ b.2 := by
  intro g hg
  by_cases h : b.2.length ≤ 1
  · have : processBucket md tag [] b = .ok [] := by simp [processBucket, h]
    rw [newGroups, this] at hg
    simp at hg
  · cases hs : sortTxs b.2 with
    | nil =>
      have : processBucket md tag [] b = .ok [] := by
        rw [processBucket, if_neg h, hs]
      rw [newGroups, this] at hg
      simp at hg
    | cons first rest =>
      have hsorted : (first :: rest).Pairwise dateLe := hs ▸ sortTxs_sorted b.2
      obtain ⟨new, hok, hshape⟩ :=
        walkGo_ok_shape md tag rest first [] (-1) (Or.inl ⟨rfl, rfl⟩) hsorted
      have hpb : processBucket md tag [] b = .ok new := by
        rw [processBucket, if_neg h, hs]
        exact hok
      rw [newGroups, hpb] at hg
      obtain ⟨hlen, hch, hmem⟩ := hshape g hg
      refine ⟨hlen, hch, fun t ht => ?_⟩
      rcases hmem t ht with h' | h'
      · simp at h'
      · have : t ∈ sortTxs b.2 := by rw [hs]; exact h'
        exact (sortTxs_perm b.2).mem_iff.mp this

/-- Per-bucket groups concatenate into a sublist of the sorted bucket: no
transaction occurrence is used by two groups. -/
theorem newGroups_flatten_sublist (md : ℚ) (tag : String) (b : ℚ × List Tx) :
    List.Sublist (newGroups md tag b).flatten (sortTxs b.2) := by
  by_cases h : b.2.length ≤ 1
  · have : processBucket md tag [] b = .ok [] := by simp [processBucket, h]
    rw [newGroups, this]
    exact List.nil_sublist _
  · cases hs : sortTxs b.2 with
    | nil =>
      have : processBucket md tag [] b = .ok [] := by
        rw [processBucket, if_neg h, hs]
      rw [newGroups, this]
      exact List.nil_sublist _
    | cons first rest =>
      have hpb := processBucket_nil_ok md tag b
      rw [processBucket, if_neg h, hs] at hpb
      have hbound := walkGo_flatten_sublist md tag rest first [] (-1)
        (newGroups md tag b) (Or.inl ⟨rfl, rfl⟩) hpb
      rw [if_neg (by simp)] at hbound
      simpa [hs] using hbound

/-! ### Characterisation of the bucket map built by `toTxs` -/

theorem getBucket_insertTx (m : List (ℚ × List Tx)) (a : ℚ) (tx : Tx) (q : ℚ) :
    getBucket (insertTx m a tx) q =
      if a = q then getBucket m q ++ [tx] else getBucket m q := by
  induction m with
  | nil =>
    by_cases haq : a = q
    · simp [insertTx, getBucket, haq]
    · simp [insertTx, getBucket, haq]
  | cons hd rest ih =>
    obtain ⟨b, l⟩ := hd
    by_cases hba : b = a
    · subst hba
      simp only [insertTx, if_pos rfl]
      by_cases hbq : b = q
      · subst hbq
        simp [getBucket]
      · simp [getBucket, hbq]
    · simp only [insertTx, if_neg hba]
      by_cases hbq : b = q
      · have haq : ¬ a = q := fun h => hba (hbq.trans h.symm)
        simp [getBucket, hbq, haq]
      · simp only [getBucket, if_neg hbq]
        exact ih

theorem getBucket_postings_fold (p : ℕ) (t : XmlTransaction) :
    ∀ (postings : List XmlPosting) (m : List (ℚ × List Tx)) (q : ℚ),
      getBucket (postings.foldl (fun m po => insertTx m po.quantity (mkTx p t po)) m) q =
        getBucket m q ++
          postings.filterMap (fun po => if po.quantity = q then some (mkTx p t po) else none)
  | [], m, q => by simp
  | po :: postings, m, q => by
    rw [List.foldl_cons, getBucket_postings_fold p t postings _ q, getBucket_insertTx]
    by_cases hpo : po.quantity = q
    · rw [if_pos hpo, List.filterMap_cons_some (by rw [if_pos hpo])]
      simp [List.append_assoc]
    · rw [if_neg hpo, List.filterMap_cons_none (by rw [if_neg hpo])]

theorem getBucket_toTxsGo :
    ∀ (ts : List XmlTransaction) (p : ℕ) (m : List (ℚ × List Tx)) (q : ℚ),
      getBucket (toTxsGo p m ts) q = getBucket m q ++ bucketOfFrom p q ts
  | [], p, m, q => by simp [toTxsGo, bucketOfFrom]
  | t :: ts, p, m, q => by
    rw [toTxsGo, getBucket_toTxsGo ts (p + 1) _ q, getBucket_postings_fold,
      bucketOfFrom, ← List.append_assoc]
    rfl

/-- Bucket `q` of the map built by `toTxs` holds exactly the `q`-postings of
each transaction, in import order. -/
theorem getBucket_toTxs (ts : List XmlTransaction) (q : ℚ) :
    getBucket (toTxs ts) q = bucketOfFrom 0 q ts := by
  rw [toTxs, getBucket_toTxsGo]
  rfl

theorem bucketOfFrom_append (q : ℚ) :
    ∀ (u v : List XmlTransaction) (n : ℕ),
      bucketOfFrom n q (u ++ v) =
        bucketOfFrom n q u ++ bucketOfFrom (n + u.length) q v
  | [], v, n => by simp [bucketOfFrom]
  | t :: u, v, n => by
    rw [List.cons_append, bucketOfFrom, bucketOfFrom,
      bucketOfFrom_append q u v (n + 1), List.length_cons, List.append_assoc]
    have harith : n + 1 + u.length = n + (u.length + 1) := by omega
    rw [harith]

theorem ownAt_mem {p : ℕ} {t : XmlTransaction} {q : ℚ} {tx : Tx}
    (h : tx ∈ ownAt p t q) :
    tx.Position = p ∧ tx.Date = t.date ∧ tx.Amount = q ∧ tx.Tags = t.tags := by
  unfold ownAt at h
  obtain ⟨po, hpo, heq⟩ := List.mem_filterMap.mp h
  by_cases hq : po.quantity = q
  · rw [if_pos hq] at heq
    cases heq
    exact ⟨rfl, rfl, hq, rfl⟩
  · rw [if_neg hq] at heq
    cases heq

theorem insertTx_wf :
    ∀ (m : List (ℚ × List Tx)) (a : ℚ) (tx : Tx),
      BucketsWF m → tx.Amount = a → BucketsWF (insertTx m a tx)
  | [], a, tx, _, htx => by
    intro b hb tx' htx'
    simp only [insertTx, List.mem_singleton] at hb
    subst hb
    simp only [List.mem_singleton] at htx'
    subst htx'
    exact htx
  | (b₀, l) :: rest, a, tx, hm, htx => by
    by_cases hba : b₀ = a
    · simp only [insertTx, if_pos hba]
      rintro b hb tx' htx'
      rcases List.mem_cons.mp hb with rfl | hb'
      · rcases List.mem_append.mp htx' with h | h
        · exact hm (b₀, l) (List.mem_cons_self _ _) tx' h
        · rw [List.mem_singleton] at h
          subst h
          exact htx.trans hba.symm
      · exact hm b (List.mem_cons_of_mem _ hb') tx' htx'
    · simp only [insertTx, if_neg hba]
      rintro b hb tx' htx'
      rcases List.mem_cons.mp hb with rfl | hb'
      · exact hm (b₀, l) (List.mem_cons_self _ _) tx' htx'
      · exact insertTx_wf rest a tx
          (fun b' hb'' tx'' h => hm b' (List.mem_cons_of_mem _ hb'') tx'' h) htx b hb' tx' htx'

theorem postings_fold_wf (p : ℕ) (t : XmlTransaction) :
    ∀ (postings : List XmlPosting) (m : List (ℚ × List Tx)),
      BucketsWF m →
      BucketsWF (postings.foldl (fun m po => insertTx m po.quantity (mkTx p t po)) m)
  | [], _, hm => hm
  | po :: postings, m, hm =>
    postings_fold_wf p t postings _ (insertTx_wf m po.quantity (mkTx p t po) hm rfl)

theorem toTxsGo_wf :
    ∀ (ts : List XmlTransaction) (p : ℕ) (m : List (ℚ × List Tx)),
      BucketsWF m → BucketsWF (toTxsGo p m ts)
  | [], _, _, hm => hm
  | t :: ts, p, m, hm =>
    toTxsGo_wf ts (p + 1) _ (postings_fold_wf p t t.postings m hm)

/-- Every bucket built by `toTxs` is keyed by the common amount of its
members. -/
theorem toTxs_wf (ts : List XmlTransaction) : BucketsWF (toTxs ts) :=
  toTxsGo_wf ts 0 [] (fun b hb => absurd hb (List.not_mem_nil b))

theorem getBucket_mem :
    ∀ (m : List (ℚ × List Tx)) (q : ℚ), getBucket m q ≠ [] → (q, getBucket m q) ∈ m
  | [], _, h => absurd rfl h
  | (b, l) :: rest, q, h => by
    by_cases hbq : b = q
    · subst hbq
      simp only [getBucket, if_pos rfl] at h ⊢
      exact List.mem_cons_self _ _
    · simp only [getBucket, if_neg hbq] at h ⊢
      exact List.mem_cons_of_mem _ (getBucket_mem rest q h)

/-! ### Equal-date runs are contiguous in the sorted bucket -/

/-- Stability consequence: the equal-date elements of the sorted bucket are
exactly the equal-date elements of the bucket, in the same (import) order. -/
theorem filter_sortTxs (l : List Tx) (d : ℚ) :
    (sortTxs l).filter (fun tx => decide (tx.Date = d)) =
      l.filter (fun tx => decide (tx.Date = d)) := by
  have hfd : ∀ x ∈ l.filter (fun tx => decide (tx.Date = d)), x.Date = d := by
    intro x hx
    have := List.of_mem_filter hx
    simpa using this
  have hpw : (l.filter (fun tx => decide (tx.Date = d))).Pairwise dateLe :=
    List.pairwise_of_forall_mem_list fun a ha b hb => by
      show a.Date ≤ b.Date
      rw [hfd a ha, hfd b hb]
  have hsub : List.Sublist (l.filter (fun tx => decide (tx.Date = d))) (sortTxs l) :=
    sortTxs_sublist hpw (List.filter_sublist l)
  have hself : (l.filter (fun tx => decide (tx.Date = d))).filter
      (fun tx => decide (tx.Date = d)) = l.filter (fun tx => decide (tx.Date = d)) := by
    rw [List.filter_filter]
    simp only [Bool.and_self]
  have hsub2 : List.Sublist (l.filter (fun tx => decide (tx.Date = d)))
      ((sortTxs l).filter (fun tx => decide (tx.Date = d))) := by
    rw [← hself]
    exact hsub.filter _
  have hperm : ((sortTxs l).filter (fun tx => decide (tx.Date = d))).Perm
      (l.filter (fun tx => decide (tx.Date = d))) := (sortTxs_perm l).filter _
  exact (hsub2.eq_of_length hperm.length_eq.symm).symm

/-- A date-sorted list splits into its bands strictly below, at, and strictly
above a given date. -/
theorem sorted_split_by_date (d : ℚ) :
    ∀ S : List Tx, S.Pairwise dateLe →
      S = S.filter (fun tx => decide (tx.Date < d)) ++
          S.filter (fun tx => decide (tx.Date = d)) ++
          S.filter (fun tx => decide (d < tx.Date))
  | [], _ => rfl
  | x :: S, hpw => by
    have ih := sorted_split_by_date d S hpw.of_cons
    have hrel : ∀ y ∈ S, x.Date ≤ y.Date := fun y hy => List.rel_of_pairwise_cons hpw hy
    rcases lt_trichotomy x.Date d with h | h | h
    · rw [List.filter_cons_of_pos (by simpa using h),
        List.filter_cons_of_neg (by simpa using ne_of_lt h),
        List.filter_cons_of_neg (by simpa using not_lt.mpr (le_of_lt h)),
        List.cons_append, List.cons_append]
      exact congrArg (x :: ·) ih
    · have hfl : S.filter (fun tx => decide (tx.Date < d)) = [] :=
        List.filter_eq_nil_iff.mpr fun y hy => by
          simp only [decide_eq_true_eq, not_lt]
          rw [← h]
          exact hrel y hy
      have hflx : (x :: S).filter (fun tx => decide (tx.Date < d)) = [] := by
        rw [List.filter_cons_of_neg (by simpa using not_lt.mpr (le_of_eq h.symm)), hfl]
      rw [hflx, List.filter_cons_of_pos (by simpa using h),
        List.filter_cons_of_neg (by simpa using not_lt.mpr (le_of_eq h)),
        List.nil_append, List.cons_append]
      rw [hfl, List.nil_append] at ih
      exact congrArg (x :: ·) ih
    · have hge : ∀ y ∈ S, d < y.Date := fun y hy => lt_of_lt_of_le h (hrel y hy)
      have hfl : S.filter (fun tx => decide (tx.Date < d)) = [] :=
        List.filter_eq_nil_iff.mpr fun y hy => by
          simpa using not_lt.mpr (le_of_lt (hge y hy))
      have hfe : S.filter (fun tx => decide (tx.Date = d)) = [] :=
        List.filter_eq_nil_iff.mpr fun y hy => by
          simpa using (ne_of_gt (hge y hy))
      rw [List.filter_cons_of_neg (by simpa using not_lt.mpr (le_of_lt h)),
        List.filter_cons_of_neg (by simpa using (ne_of_gt h)),
        List.filter_cons_of_pos (by simpa using h), hfl, hfe, List.nil_append,
        List.nil_append]
      rw [hfl, hfe, List.nil_append, List.nil_append] at ih
      exact congrArg (x :: ·) ih

/-- A contiguous equal-date block of a bucket is still contiguous after the
stable sort. -/
theorem sortTxs_run_split {l l₁ own l₂ : List Tx} {d : ℚ}
    (hl : l = l₁ ++ own ++ l₂) (hown : ∀ tx ∈ own, tx.Date = d) :
    ∃ s₁ s₂, sortTxs l = s₁ ++ own ++ s₂ := by
  have hsplit := sorted_split_by_date d (sortTxs l) (sortTxs_sorted l)
  have hfilter := filter_sortTxs l d
  have hown' : own.filter (fun tx => decide (tx.Date = d)) = own :=
    List.filter_eq_self.mpr fun a ha => by simpa using hown a ha
  have hlf : l.filter (fun tx => decide (tx.Date = d)) =
      l₁.filter (fun tx => decide (tx.Date = d)) ++ own ++
        l₂.filter (fun tx => decide (tx.Date = d)) := by
    rw [hl, List.filter_append, List.filter_append, hown']
  refine ⟨(sortTxs l).filter (fun tx => decide (tx.Date < d)) ++
      l₁.filter (fun tx => decide (tx.Date = d)),
    l₂.filter (fun tx => decide (tx.Date = d)) ++
      (sortTxs l).filter (fun tx => decide (d < tx.Date)), ?_⟩
  conv_lhs => rw [hsplit]
  rw [hfilter, hlf]
  simp [List.append_assoc]

/-! ### A contiguous equal-date block of a bucket lands in one output group -/

theorem bucket_run_grouped (md : ℚ) (tag : String) (hmd : 0 ≤ md) (a d : ℚ)
    (l l₁ own l₂ : List Tx) (hl : l = l₁ ++ own ++ l₂)
    (hown : ∀ tx ∈ own, tx.Date = d) (hlen : 2 ≤ own.length)
    (htag : ∀ z ∈ own, find tag z.Tags = false) :
    ∃ g ∈ newGroups md tag (a, l), ∀ z ∈ own, z ∈ g := by
  match own, hlen with
  | z₁ :: z₂ :: zs, _ =>
  have hz₁ : z₁.Date = d := hown z₁ (List.mem_cons_self _ _)
  have hz₂ : z₂.Date = d := hown z₂ (List.mem_cons_of_mem _ (List.mem_cons_self _ _))
  have hdz : ∀ z ∈ z₂ :: zs, z.Date = z₁.Date := fun z hz =>
    (hown z (List.mem_cons_of_mem _ hz)).trans hz₁.symm
  have hlenl : ¬ l.length ≤ 1 := by
    rw [hl]
    simp only [List.length_append, List.length_cons]
    omega
  have hpb := processBucket_nil_ok md tag (a, l)
  obtain ⟨s₁, s₂, hsort⟩ := sortTxs_run_split hl hown
  rw [List.append_assoc] at hsort
  cases s₁ with
  | nil =>
    rw [List.nil_append, List.cons_append, List.cons_append] at hsort
    rw [processBucket, if_neg hlenl, hsort] at hpb
    replace hpb : walkGo md tag [] [] (-1) z₁ (z₂ :: (zs ++ s₂)) =
        Except.ok (newGroups md tag (a, l)) := hpb
    have c1 : z₂.Date - z₁.Date ≤ md := by
      rw [hz₁, hz₂, sub_self]
      exact hmd
    have c2 : ¬ z₂.Date - z₁.Date < 0 := by
      rw [hz₁, hz₂, sub_self]
      exact lt_irrefl 0
    have c3 : ¬(0 ≤ (-1 : ℤ) ∧
        z₂.Date - (([] : List Tx).getD (-1 : ℤ).toNat z₁).Date ≤ md) := by
      rintro ⟨h, -⟩
      exact absurd h (by decide)
    rw [walkGo_cons, if_pos c1, if_neg c2, if_neg c3, keep_nil] at hpb
    obtain ⟨g, hg, hdups, hzs⟩ := walkGo_run_absorb md tag hmd zs s₂ z₂ [z₁, z₂] 1
      (newGroups md tag (a, l)) ⟨z₁, by simp, htag z₁ (List.mem_cons_self _ _)⟩
      (by simp) (by simp) (by simp)
      (fun z hz => (hdz z (List.mem_cons_of_mem z₂ hz)).trans (hz₁.trans hz₂.symm)) hpb
    refine ⟨g, hg, ?_⟩
    intro z hz
    rcases List.mem_cons.mp hz with rfl | hz'
    · exact hdups z (by simp)
    rcases List.mem_cons.mp hz' with rfl | hz''
    · exact hdups z (by simp)
    · exact hzs z hz''
  | cons w s₁ =>
    rw [List.cons_append] at hsort
    rw [processBucket, if_neg hlenl, hsort] at hpb
    have hsorted := sortTxs_sorted l
    rw [hsort] at hsorted
    obtain ⟨prev', dups', li', pre, new', hInv', hpw', hok', hnew⟩ :=
      walkGo_reach md tag ((z₁ :: z₂ :: zs) ++ s₂) s₁ w [] (-1)
        (newGroups md tag (a, l)) (Or.inl ⟨rfl, rfl⟩) hsorted hpb
    obtain ⟨g, hg, hmem⟩ := walkGo_entry md tag hmd z₁ z₂ zs s₂
      (htag z₁ (List.mem_cons_self _ _)) hdz prev' dups' li' new' hInv' hpw' hok'
    exact ⟨g, hnew ▸ List.mem_append_right pre hg, hmem⟩

/-! ### The claims -/

/-- Claim C1: transitive (chained) window extension.  Whenever the gap of `cur` to
its array predecessor and its gap to the chain's most recently accepted
member are both within `maxDuration`, `cur` is appended to the current chain
(so a chain may span more than `maxDuration` end to end); in particular three
equal-amount transactions dated day 0, day 9, day 18 with a 240-hour window
yield exactly one group containing all three. -/
theorem claim1_chained_extension :
    (∀ (md : ℚ) (tag : String) (acc : List (List Tx)) (dups : List Tx) (li : Int)
        (prev cur : Tx) (rest : List Tx),
        cur.Date - prev.Date ≤ md →
        0 ≤ cur.Date - prev.Date →
        0 ≤ li →
        cur.Date - (dups.getD li.toNat prev).Date ≤ md →
        0 ≤ cur.Date - (dups.getD li.toNat prev).Date →
        walkGo md tag acc dups li prev (cur :: rest) =
          walkGo md tag acc (dups ++ [cur]) (li + 1) cur rest) ∧
    findDuplicates 240 "notDup" [(10, [txS0, txS9, txS18])] =
      .ok [[txS0, txS9, txS18]] := by
  constructor
  · intro md tag acc dups li prev cur rest h1 h2 h3 h4 h5
    rw [walkGo_cons, if_pos h1, if_neg (not_lt.mpr h2), if_pos ⟨h3, h4⟩,
      if_neg (not_lt.mpr h5)]
  · norm_num [findDuplicates, processBucket, walkGo, sortTxs, List.insertionSort,
      List.orderedInsert, keep, keepGo, find, txS0, txS9, txS18, dateLe]

theorem claim1_witness :
    (txS18.Date - txS9.Date ≤ (240 : ℚ) ∧ (0 : ℚ) ≤ txS18.Date - txS9.Date ∧
      (0 : ℤ) ≤ 1 ∧
      txS18.Date - (([txS0, txS9].getD (1 : ℤ).toNat txS9)).Date ≤ 240 ∧
      (0 : ℚ) ≤ txS18.Date - (([txS0, txS9].getD (1 : ℤ).toNat txS9)).Date) ∧
    walkGo 240 "notDup" [] [txS0, txS9] 1 txS9 [txS18] =
      walkGo 240 "notDup" [] ([txS0, txS9] ++ [txS18]) (1 + 1) txS18 [] := by
  have h1 : txS18.Date - txS9.Date ≤ (240 : ℚ) := by norm_num [txS18, txS9]
  have h2 : (0 : ℚ) ≤ txS18.Date - txS9.Date := by norm_num [txS18, txS9]
  have h3 : (0 : ℤ) ≤ 1 := by norm_num
  have h4 : txS18.Date - (([txS0, txS9].getD (1 : ℤ).toNat txS9)).Date ≤ 240 := by
    norm_num [txS18, txS9, List.getD]
  have h5 : (0 : ℚ) ≤ txS18.Date - (([txS0, txS9].getD (1 : ℤ).toNat txS9)).Date := by
    norm_num [txS18, txS9, List.getD]
  exact ⟨⟨h1, h2, h3, h4, h5⟩,
    claim1_chained_extension.1 240 "notDup" [] [txS0, txS9] 1 txS9 txS18 [] h1 h2 h3 h4 h5⟩

/-- Claim C2: flush only on new-chain start.  A window miss against the array
predecessor leaves the whole loop state unchanged (no flush, no new chain);
the in-progress chain is handed to the suppression filter exactly when a
fresh chain `[prev, cur]` starts, or when the walk over the bucket ends. -/
theorem claim2_flush_discipline :
    ∀ (md : ℚ) (tag : String) (acc : List (List Tx)) (dups : List Tx) (li : Int)
      (prev cur : Tx) (rest : List Tx),
      (md < cur.Date - prev.Date →
        walkGo md tag acc dups li prev (cur :: rest) =
          walkGo md tag acc dups li cur rest) ∧
      (cur.Date - prev.Date ≤ md → 0 ≤ cur.Date - prev.Date →
        ¬(0 ≤ li ∧ cur.Date - (dups.getD li.toNat prev).Date ≤ md) →
        walkGo md tag acc dups li prev (cur :: rest) =
          walkGo md tag (keep tag acc dups) [prev, cur] 1 cur rest) ∧
      walkGo md tag acc dups li prev [] = .ok (keep tag acc dups) := by
  intro md tag acc dups li prev cur rest
  refine ⟨fun h => ?_, fun h1 h2 h3 => ?_, walkGo_nil md tag acc dups li prev⟩
  · rw [walkGo_cons, if_neg (not_le.mpr h)]
  · rw [walkGo_cons, if_pos h1, if_neg (not_lt.mpr h2), if_neg h3]

theorem claim2_witness :
    (txS9.Date - txS0.Date ≤ (240 : ℚ) ∧ (0 : ℚ) ≤ txS9.Date - txS0.Date ∧
      ¬((0 : ℤ) ≤ -1 ∧ txS9.Date - (([] : List Tx).getD (-1 : ℤ).toNat txS0).Date ≤ 240)) ∧
    walkGo 240 "notDup" [] [] (-1) txS0 [txS9] =
      walkGo 240 "notDup" (keep "notDup" [] []) [txS0, txS9] 1 txS9 [] := by
  have h1 : txS9.Date - txS0.Date ≤ (240 : ℚ) := by norm_num [txS9, txS0]
  have h2 : (0 : ℚ) ≤ txS9.Date - txS0.Date := by norm_num [txS9, txS0]
  have h3 : ¬((0 : ℤ) ≤ -1 ∧
      txS9.Date - (([] : List Tx).getD (-1 : ℤ).toNat txS0).Date ≤ 240) := by
    rintro ⟨h, -⟩
    exact absurd h (by decide)
  exact ⟨⟨h1, h2, h3⟩,
    (claim2_flush_discipline 240 "notDup" [] [] (-1) txS0 txS9 []).2.1 h1 h2 h3⟩

/-- Claim C3: unanimous-ignore suppression.  A candidate chain is appended to the
output, unmodified and in full, exactly when at least one member's tags do
not contain the ignored tag; it is dropped exactly when every member's tags
contain it; and `find` decides exactly membership of the tag in the list. -/
theorem claim3_unanimous_suppression :
    ∀ (tag : String) (acc : List (List Tx)) (dups : List Tx),
      (keep tag acc dups = acc ++ [dups] ↔ ∃ tx ∈ dups, find tag tx.Tags = false) ∧
      (keep tag acc dups = acc ↔ ∀ tx ∈ dups, find tag tx.Tags = true) ∧
      (∀ (v : String) (l : List String), find v l = true ↔ v ∈ l) := by
  intro tag acc dups
  have hne : acc ++ [dups] ≠ acc := by
    intro heq
    have := congrArg List.length heq
    simp at this
  by_cases h : ∀ tx ∈ dups, find tag tx.Tags = true
  · refine ⟨?_, ?_, find_iff_mem⟩
    · rw [keep_drop acc h]
      constructor
      · intro heq
        exact absurd heq.symm hne
      · rintro ⟨tx, htx, hf⟩
        rw [h tx htx] at hf
        cases hf
    · rw [keep_drop acc h]
      exact ⟨fun _ => h, fun _ => rfl⟩
  · have hex : ∃ tx ∈ dups, find tag tx.Tags = false := by
      push_neg at h
      obtain ⟨tx, htx, hf⟩ := h
      exact ⟨tx, htx, by simpa using hf⟩
    refine ⟨?_, ?_, find_iff_mem⟩
    · rw [keep_emit acc hex]
      exact ⟨fun _ => hex, fun _ => rfl⟩
    · rw [keep_emit acc hex]
      constructor
      · intro heq
        exact absurd heq hne
      · intro hall
        exact absurd hall h

/-- Claim C4: every group emitted by `findDuplicates` over the buckets built by
`toTxs` has at least two members, all drawn from one bucket and all carrying
that bucket's key as their amount; buckets holding at most one transaction
contribute no group. -/
theorem claim4_group_size_amount :
    ∀ (md : ℚ) (tag : String) (ts : List XmlTransaction) (gs : List (List Tx)),
      findDuplicates md tag (toTxs ts) = .ok gs →
      (∀ g ∈ gs, 2 ≤ g.length ∧
        ∃ a l, (a, l) ∈ toTxs ts ∧ ∀ tx ∈ g, tx ∈ l ∧ tx.Amount = a) ∧
      (∀ (acc : List (List Tx)) (b : ℚ × List Tx), b.2.length ≤ 1 →
        processBucket md tag acc b = .ok acc) := by
  intro md tag ts gs hok
  rw [findDuplicates_eq] at hok
  cases hok
  constructor
  · intro g hg
    obtain ⟨b, hb, hgb⟩ := List.mem_flatMap.mp hg
    obtain ⟨hlen, -, hmem⟩ := newGroups_shape md tag b g hgb
    obtain ⟨a, l⟩ := b
    exact ⟨hlen, a, l, hb, fun tx ht =>
      ⟨hmem tx ht, toTxs_wf ts (a, l) hb tx (hmem tx ht)⟩⟩
  · intro acc b h
    exact processBucket_small md tag acc h

theorem claim4_witness :
    findDuplicates 240 "notDup" (toTxs [xtA, xtB]) =
      .ok [[⟨0, 0, "grocer", "assets", 7, []⟩, ⟨24, 1, "grocer again", "assets", 7, []⟩]] ∧
    (∀ g ∈ [[(⟨0, 0, "grocer", "assets", 7, []⟩ : Tx),
        ⟨24, 1, "grocer again", "assets", 7, []⟩]], 2 ≤ g.length ∧
      ∃ a l, (a, l) ∈ toTxs [xtA, xtB] ∧ ∀ tx ∈ g, tx ∈ l ∧ tx.Amount = a) ∧
    (∀ (acc : List (List Tx)) (b : ℚ × List Tx), b.2.length ≤ 1 →
      processBucket 240 "notDup" acc b = .ok acc) := by
  have hok : findDuplicates 240 "notDup" (toTxs [xtA, xtB]) =
      .ok [[⟨0, 0, "grocer", "assets", 7, []⟩,
        ⟨24, 1, "grocer again", "assets", 7, []⟩]] := by
    norm_num [findDuplicates, processBucket, walkGo, sortTxs, List.insertionSort,
      List.orderedInsert, keep, keepGo, find, dateLe, toTxs, toTxsGo, insertTx,
      mkTx, xtA, xtB]
  exact ⟨hok, (claim4_group_size_amount 240 "notDup" [xtA, xtB] _ hok).1,
    (claim4_group_size_amount 240 "notDup" [xtA, xtB] _ hok).2⟩

/-- Claim C5: members of every emitted group appear in ascending date order as a
sublist of the stably sorted bucket (so date ties keep their original bucket
order), every pair of consecutively accepted members has an hour gap of at
most `maxDuration`, and the bucket sort is the stable sort by date: sorted,
a permutation of the bucket, and preserving every date-sorted sublist. -/
theorem claim5_group_order :
    ∀ (md : ℚ) (tag : String) (bs : List (ℚ × List Tx)) (gs : List (List Tx)),
      findDuplicates md tag bs = .ok gs →
      (∀ g ∈ gs, ∃ b ∈ bs, List.Sublist g (sortTxs b.2) ∧ g.Pairwise dateLe ∧
        g.Chain' (fun x y => y.Date - x.Date ≤ md)) ∧
      (∀ l : List Tx, (sortTxs l).Pairwise dateLe ∧ (sortTxs l).Perm l ∧
        ∀ c : List Tx, c.Pairwise dateLe → List.Sublist c l →
          List.Sublist c (sortTxs l)) := by
  intro md tag bs gs hok
  rw [findDuplicates_eq] at hok
  cases hok
  constructor
  · intro g hg
    obtain ⟨b, hb, hgb⟩ := List.mem_flatMap.mp hg
    obtain ⟨-, hch, -⟩ := newGroups_shape md tag b g hgb
    have hsub : List.Sublist g (sortTxs b.2) :=
      (List.sublist_flatten_of_mem hgb).trans (newGroups_flatten_sublist md tag b)
    exact ⟨b, hb, hsub, (sortTxs_sorted b.2).sublist hsub,
      hch.imp fun _ _ hab => hab.2⟩
  · intro l
    exact ⟨sortTxs_sorted l, sortTxs_perm l, fun c hc hs => sortTxs_sublist hc hs⟩

theorem claim5_witness :
    findDuplicates 240 "notDup" [(10, [txS18, txS0, txS9])] =
      .ok [[txS0, txS9, txS18]] ∧
    (∀ g ∈ [[txS0, txS9, txS18]], ∃ b ∈ [((10 : ℚ), [txS18, txS0, txS9])],
      List.Sublist g (sortTxs b.2) ∧ g.Pairwise dateLe ∧
      g.Chain' (fun x y => y.Date - x.Date ≤ (240 : ℚ))) ∧
    (∀ l : List Tx, (sortTxs l).Pairwise dateLe ∧ (sortTxs l).Perm l ∧
      ∀ c : List Tx, c.Pairwise dateLe → List.Sublist c l →
        List.Sublist c (sortTxs l)) := by
  have hok : findDuplicates 240 "notDup" [(10, [txS18, txS0, txS9])] =
      .ok [[txS0, txS9, txS18]] := by
    norm_num [findDuplicates, processBucket, walkGo, sortTxs, List.insertionSort,
      List.orderedInsert, keep, keepGo, find, txS0, txS9, txS18, dateLe]
  exact ⟨hok, (claim5_group_order 240 "notDup" [(10, [txS18, txS0, txS9])] _ hok).1,
    (claim5_group_order 240 "notDup" [(10, [txS18, txS0, txS9])] _ hok).2⟩


/-- Claim C6 counterexample: two bucket lists representing the same amount map
(they are permutations of each other, as Go's randomised map iteration can
produce either) make `findDuplicates` emit the same groups in different
order, so "identical groups in identical order" fails as stated. -/
theorem claim6_counterexample :
    List.Perm [((1 : ℚ), [txM1, txM2]), ((2 : ℚ), [txM3, txM4])]
      [((2 : ℚ), [txM3, txM4]), ((1 : ℚ), [txM1, txM2])] ∧
    findDuplicates 240 "notDup" [((1 : ℚ), [txM1, txM2]), ((2 : ℚ), [txM3, txM4])] ≠
      findDuplicates 240 "notDup" [((2 : ℚ), [txM3, txM4]), ((1 : ℚ), [txM1, txM2])] := by
  constructor
  · exact List.Perm.swap _ _ _
  · have h1 : findDuplicates 240 "notDup"
        [((1 : ℚ), [txM1, txM2]), ((2 : ℚ), [txM3, txM4])] =
        .ok [[txM1, txM2], [txM3, txM4]] := by
      norm_num [findDuplicates, processBucket, walkGo, sortTxs, List.insertionSort,
        List.orderedInsert, keep, keepGo, find, txM1, txM2, txM3, txM4, dateLe,
        Bind.bind, Except.bind, Pure.pure, Except.pure]
    have h2 : findDuplicates 240 "notDup"
        [((2 : ℚ), [txM3, txM4]), ((1 : ℚ), [txM1, txM2])] =
        .ok [[txM3, txM4], [txM1, txM2]] := by
      norm_num [findDuplicates, processBucket, walkGo, sortTxs, List.insertionSort,
        List.orderedInsert, keep, keepGo, find, txM1, txM2, txM3, txM4, dateLe,
        Bind.bind, Except.bind, Pure.pure, Except.pure]
    rw [h1, h2]
    intro heq
    have := Except.ok.inj heq
    norm_num [txM1, txM3, Tx.mk.injEq] at this

/-- Claim C6 amended: for a fixed bucket iteration order `findDuplicates` is a pure
function (two runs agree exactly), and across the iteration orders Go may
choose for the same map the multiset of emitted groups is the same — only the
relative order of groups from different amount buckets can change. -/
theorem claim6_determinism_amended :
    ∀ (md : ℚ) (tag : String) (bs₁ bs₂ : List (ℚ × List Tx)),
      findDuplicates md tag bs₁ = findDuplicates md tag bs₁ ∧
      (bs₁.Perm bs₂ →
        ∃ gs₁ gs₂, findDuplicates md tag bs₁ = .ok gs₁ ∧
          findDuplicates md tag bs₂ = .ok gs₂ ∧ gs₁.Perm gs₂) := by
  intro md tag bs₁ bs₂
  refine ⟨rfl, fun hperm => ?_⟩
  refine ⟨_, _, findDuplicates_eq md tag bs₁, findDuplicates_eq md tag bs₂, ?_⟩
  rw [List.flatMap_def, List.flatMap_def]
  exact (hperm.map (newGroups md tag)).flatten

theorem claim6_witness :
    List.Perm [((1 : ℚ), [txM1, txM2]), ((2 : ℚ), [txM3, txM4])]
      [((2 : ℚ), [txM3, txM4]), ((1 : ℚ), [txM1, txM2])] ∧
    ∃ gs₁ gs₂,
      findDuplicates 240 "notDup"
        [((1 : ℚ), [txM1, txM2]), ((2 : ℚ), [txM3, txM4])] = .ok gs₁ ∧
      findDuplicates 240 "notDup"
        [((2 : ℚ), [txM3, txM4]), ((1 : ℚ), [txM1, txM2])] = .ok gs₂ ∧
      gs₁.Perm gs₂ := by
  have hperm : List.Perm [((1 : ℚ), [txM1, txM2]), ((2 : ℚ), [txM3, txM4])]
      [((2 : ℚ), [txM3, txM4]), ((1 : ℚ), [txM1, txM2])] := List.Perm.swap _ _ _
  exact ⟨hperm,
    (claim6_determinism_amended 240 "notDup"
      [((1 : ℚ), [txM1, txM2]), ((2 : ℚ), [txM3, txM4])]
      [((2 : ℚ), [txM3, txM4]), ((1 : ℚ), [txM1, txM2])]).2 hperm⟩

/-- Claim C7: groups do not overlap within a bucket.  The full run emits exactly
the per-bucket group lists in bucket order, and the concatenation of one
bucket's groups is a sublist of the (sorted) bucket, so each transaction
occurrence belongs to at most one emitted group. -/
theorem claim7_no_overlap :
    ∀ (md : ℚ) (tag : String),
      (∀ bs : List (ℚ × List Tx),
        findDuplicates md tag bs = .ok (bs.flatMap (newGroups md tag))) ∧
      ∀ b : ℚ × List Tx,
        List.Sublist (newGroups md tag b).flatten (sortTxs b.2) ∧
        (sortTxs b.2).Perm b.2 :=
  fun md tag => ⟨findDuplicates_eq md tag,
    fun b => ⟨newGroups_flatten_sublist md tag b, sortTxs_perm b.2⟩⟩

/-- Claim C8: the defensive negative-gap fatal branches are unreachable: for every
bucket list and every nonnegative window, `findDuplicates` returns normally
(never the "negative duration" error). -/
theorem claim8_no_fatal :
    ∀ (md : ℚ) (tag : String) (bs : List (ℚ × List Tx)),
      0 ≤ md → ∃ gs, findDuplicates md tag bs = .ok gs :=
  fun md tag bs _ => ⟨_, findDuplicates_eq md tag bs⟩

theorem claim8_witness :
    (0 : ℚ) ≤ 240 ∧
    ∃ gs, findDuplicates 240 "notDup" [(10, [txS0, txS9, txS18])] = .ok gs :=
  ⟨by norm_num, claim8_no_fatal 240 "notDup" [(10, [txS0, txS9, txS18])] (by norm_num)⟩

/-- Claim C9 counterexample: `findDuplicates` sorts each bucket slice in place, so
after a run a bucket that was not date-sorted no longer holds its
transactions in the original order: the claim "same transactions in the same
order as before the call" fails. -/
theorem claim9_counterexample :
    bucketsAfter [((5 : ℚ), [txR1, txR2])] ≠ [((5 : ℚ), [txR1, txR2])] := by
  have h : bucketsAfter [((5 : ℚ), [txR1, txR2])] = [((5 : ℚ), [txR2, txR1])] := by
    norm_num [bucketsAfter, sortTxs, List.insertionSort, List.orderedInsert,
      dateLe, txR1, txR2]
  rw [h]
  intro heq
  norm_num [txR1, txR2, Tx.mk.injEq] at heq

/-- Claim C9 amended: `findDuplicates` never mutates a transaction record's fields
and never moves a transaction across buckets: after the call every bucket has
the same key and exactly the same transactions, but as a side effect of the
in-place stable sort each processed bucket is reordered by ascending date. -/
theorem claim9_buckets_amended :
    ∀ buckets : List (ℚ × List Tx),
      List.Forall₂ (fun b b' => b.1 = b'.1 ∧ b.2.Perm b'.2 ∧ b'.2.Pairwise dateLe)
        buckets (bucketsAfter buckets) := by
  intro buckets
  induction buckets with
  | nil => exact List.Forall₂.nil
  | cons b bs ih =>
    refine List.Forall₂.cons ?_ ih
    by_cases h : b.2.length ≤ 1
    · simp only [if_pos h]
      refine ⟨trivial, List.Perm.refl _, ?_⟩
      match b, h with
      | (a, []), _ => exact List.Pairwise.nil
      | (a, [tx]), _ => simp
    · simp only [if_neg h]
      exact ⟨trivial, (sortTxs_perm b.2).symm, sortTxs_sorted b.2⟩

/-- Claim C10: an imported transaction with two or more postings of the same amount
gives all of those postings the same `Position` (the transaction's index) and
the same date, places them consecutively in that amount's bucket, and — for
any nonnegative window — `findDuplicates` puts them, with their zero date
gaps, into one candidate group, which is emitted when the transaction is not
marked with the ignored tag. -/
theorem claim10_same_transaction_postings :
    ∀ (md : ℚ) (tag : String) (ts u v : List XmlTransaction)
      (t : XmlTransaction) (q : ℚ),
      ts = u ++ t :: v → 0 ≤ md → find tag t.tags = false →
      2 ≤ (ownAt u.length t q).length →
      getBucket (toTxs ts) q =
        bucketOfFrom 0 q u ++ ownAt u.length t q ++ bucketOfFrom (u.length + 1) q v ∧
      (∀ tx ∈ ownAt u.length t q,
        tx.Position = u.length ∧ tx.Date = t.date ∧ tx.Amount = q) ∧
      ∃ gs, findDuplicates md tag (toTxs ts) = .ok gs ∧
        ∃ g ∈ gs, ∀ tx ∈ ownAt u.length t q, tx ∈ g := by
  intro md tag ts u v t q hts hmd htag hlen
  have hbucket : getBucket (toTxs ts) q =
      bucketOfFrom 0 q u ++ ownAt u.length t q ++ bucketOfFrom (u.length + 1) q v := by
    rw [getBucket_toTxs, hts, bucketOfFrom_append, bucketOfFrom]
    simp only [Nat.zero_add, List.append_assoc]
  refine ⟨hbucket, fun tx htx => ?_, ?_⟩
  · obtain ⟨hp, hd, ha, -⟩ := ownAt_mem htx
    exact ⟨hp, hd, ha⟩
  · have hown : ∀ tx ∈ ownAt u.length t q, tx.Date = t.date :=
      fun tx htx => (ownAt_mem htx).2.1
    have htags : ∀ z ∈ ownAt u.length t q, find tag z.Tags = false := fun z hz => by
      rw [(ownAt_mem hz).2.2.2]
      exact htag
    obtain ⟨g, hgN, hmem⟩ := bucket_run_grouped md tag hmd q t.date
      (getBucket (toTxs ts) q) (bucketOfFrom 0 q u) (ownAt u.length t q)
      (bucketOfFrom (u.length + 1) q v) hbucket hown hlen htags
    have hlne : getBucket (toTxs ts) q ≠ [] := by
      intro hnil
      rw [hbucket] at hnil
      have := congrArg List.length hnil
      simp only [List.length_append, List.length_nil] at this
      omega
    have hbmem : (q, getBucket (toTxs ts) q) ∈ toTxs ts :=
      getBucket_mem (toTxs ts) q hlne
    exact ⟨(toTxs ts).flatMap (newGroups md tag), findDuplicates_eq md tag (toTxs ts),
      g, List.mem_flatMap.mpr ⟨(q, getBucket (toTxs ts) q), hbmem, hgN⟩, hmem⟩

theorem claim10_witness :
    ([xtOther, xtTwin] = [xtOther] ++ xtTwin :: [] ∧ (0 : ℚ) ≤ 240 ∧
      find "notDup" xtTwin.tags = false ∧
      2 ≤ (ownAt [xtOther].length xtTwin 5).length) ∧
    (getBucket (toTxs [xtOther, xtTwin]) 5 =
      bucketOfFrom 0 5 [xtOther] ++ ownAt [xtOther].length xtTwin 5 ++
        bucketOfFrom ([xtOther].length + 1) 5 [] ∧
    (∀ tx ∈ ownAt [xtOther].length xtTwin 5,
      tx.Position = [xtOther].length ∧ tx.Date = xtTwin.date ∧ tx.Amount = 5) ∧
    ∃ gs, findDuplicates 240 "notDup" (toTxs [xtOther, xtTwin]) = .ok gs ∧
      ∃ g ∈ gs, ∀ tx ∈ ownAt [xtOther].length xtTwin 5, tx ∈ g) := by
  have h1 : [xtOther, xtTwin] = [xtOther] ++ xtTwin :: [] := rfl
  have h2 : (0 : ℚ) ≤ 240 := by norm_num
  have h3 : find "notDup" xtTwin.tags = false := rfl
  have h4 : 2 ≤ (ownAt [xtOther].length xtTwin 5).length := by
    norm_num [ownAt, xtTwin, mkTx, List.filterMap]
  exact ⟨⟨h1, h2, h3, h4⟩,
    claim10_same_transaction_postings 240 "notDup" [xtOther, xtTwin] [xtOther] []
      xtTwin 5 h1 h2 h3 h4⟩
